import Mathlib

/-! Shallow embedding of `.github/workflows/publish-agol.py`, the command-line
script that publishes an ArcGIS Pro add-in to an ArcGIS Online content item.

Python strings are modelled as `List Char` (sequences of code points).  The
regex patterns of the description-splice logic (script lines 187-209) are
embedded as explicit leftmost-match functions, and a run of `main` is embedded
as a function from the parsed command-line arguments plus an oracle describing
the remote service's behaviour to the ordered list of remote calls attempted
and the process exit status. -/

namespace Agol

/-- The literal string `"Latest Version:"`. -/
def lv : List Char :=
  ['L', 'a', 't', 'e', 's', 't', ' ', 'V', 'e', 'r', 's', 'i', 'o', 'n', ':']

/-- Whitespace as stripped by Python's `str.strip()` and matched by `\s`
(modelled on the ASCII range). -/
def pySpace (c : Char) : Bool :=
  c = ' ' || c = '\t' || c = '\n' || c = '\r' || c = '\x0b' || c = '\x0c'

/-- Python `str.strip()`: drop whitespace from both ends. -/
def pyStrip (s : List Char) : List Char :=
  ((s.dropWhile pySpace).reverse.dropWhile pySpace).reverse

/-- Python `str.split(sep)` for a one-character separator (used with `'\n'`
at script line 214 and with `','` at line 240). -/
def pySplit (sep : Char) : List Char → List (List Char)
  | [] => [[]]
  | c :: t =>
    if c = sep then [] :: pySplit sep t
    else
      match pySplit sep t with
      | [] => [[c]]
      | l :: ls => (c :: l) :: ls

/-- Python `'\n'.join` (script line 226). -/
def joinNL : List (List Char) → List Char
  | [] => []
  | [l] => l
  | l :: ls => l ++ '\n' :: joinNL ls

/-- Non-newline characters, the body of a matched version line. -/
def notNL (c : Char) : Bool := c != '\n'

/-- Split `s` at the first occurrence of `old`: `some (pre, post)` with
`s = pre ++ old ++ post` and `pre` shortest possible, `none` if `old` does
not occur.  This is the index search underlying Python's
`str.replace(old, new, 1)` (script line 207). -/
def firstOccSplit (old : List Char) : List Char → Option (List Char × List Char)
  | [] => if old.isPrefixOf ([] : List Char) then some ([], []) else none
  | c :: t =>
    if old.isPrefixOf (c :: t) then some ([], (c :: t).drop old.length)
    else (firstOccSplit old t).map fun pr => (c :: pr.1, pr.2)

/-- Python `s.replace(old, new, 1)`: replace the first occurrence of `old`
in `s` by `new` (script line 207). -/
def replaceFirst (s old new : List Char) : List Char :=
  match firstOccSplit old s with
  | some (pre, post) => pre ++ new ++ post
  | none => s

/-- Attempted match of pattern 1, `r'Latest Version:.*?(?=\n|$)'` with
`re.MULTILINE | re.DOTALL`, at the start of `s`: the literal must be a prefix
and the lazy `.*?` extends minimally until the lookahead holds, i.e. until the
next character is `'\n'` or the string ends (a MULTILINE `$` matches at the
end and before every newline). -/
def matchAt1 (s : List Char) : Option (List Char) :=
  if lv.isPrefixOf s then some (lv ++ (s.drop lv.length).takeWhile notNL) else none

/-- Digits and dots, the character class `[\d.]` of pattern 2. -/
def isDigitDot (c : Char) : Bool := c.isDigit || c = '.'

/-- Attempted match of pattern 2, `r'Latest Version:\s*v[\d.]+\s*.*?(?=\n|$)'`,
at the start of `s`: after the literal, greedy `\s*`, the letter `v`, a
non-empty greedy run of `[\d.]`, greedy `\s*`, then lazy `.*?` up to the next
newline or the end.  Backtracking never helps here: a shorter `\s*` run still
faces a whitespace character where `v` is required, and the final lookahead is
always reachable. -/
def matchAt2 (s : List Char) : Option (List Char) :=
  if lv.isPrefixOf s then
    let r := s.drop lv.length
    let ws1 := r.takeWhile pySpace
    match r.dropWhile pySpace with
    | [] => none
    | c :: r2 =>
      if c = 'v' then
        let ds := r2.takeWhile isDigitDot
        if ds.isEmpty then none
        else
          let r3 := r2.dropWhile isDigitDot
          some (lv ++ ws1 ++ 'v' :: ds ++ r3.takeWhile pySpace ++
            (r3.dropWhile pySpace).takeWhile notNL)
      else none
  else none

/-- Attempted match of pattern 3,
`r'Latest Version:.*?(?=\n\n|\n🏆|\n📦|\n\n|$)'`, at the start of `s`.  Under
`re.MULTILINE` the `$` alternative already matches before every newline, so
the lookahead holds exactly when the next character is `'\n'` or the string
ends, and the lazy `.*?` stops at the same place as in pattern 1. -/
def matchAt3 (s : List Char) : Option (List Char) :=
  if lv.isPrefixOf s then some (lv ++ (s.drop lv.length).takeWhile notNL) else none

/-- Attempted match of pattern 4, `r'Latest Version:[^\n]*(?:\n|$)'`, at the
start of `s`: greedy non-newline run, then the newline itself when present
(the `\n` alternative is tried before `$`). -/
def matchAt4 (s : List Char) : Option (List Char) :=
  if lv.isPrefixOf s then
    let r := s.drop lv.length
    some (lv ++ r.takeWhile notNL ++
      (if r.dropWhile notNL = [] then [] else ['\n']))
  else none

/-- Attempted match of pattern 5, `r'Latest Version:.*'` with `re.DOTALL`, at
the start of `s`: greedy `.*` with dot matching newlines consumes the whole
remainder. -/
def matchAt5 (s : List Char) : Option (List Char) :=
  if lv.isPrefixOf s then some s else none

/-- `re.search` semantics: try the attempted-match function at every position
from left to right and return the first success. -/
def searchFirst (f : List Char → Option (List Char)) : List Char → Option (List Char)
  | [] => f []
  | c :: t =>
    match f (c :: t) with
    | some m => some m
    | none => searchFirst f t

/-- The loop over patterns 1-5 (script lines 200-209): each pattern is tried
in order with `re.search` and the loop commits to the first one that finds a
match, returning the matched text. -/
def regexLoopMatch (d : List Char) : Option (List Char) :=
  match searchFirst matchAt1 d with
  | some m => some m
  | none =>
    match searchFirst matchAt2 d with
    | some m => some m
    | none =>
      match searchFirst matchAt3 d with
      | some m => some m
      | none =>
        match searchFirst matchAt4 d with
        | some m => some m
        | none => searchFirst matchAt5 d

/-- The line loop of the string-based fallback (script lines 214-223): each
line whose stripped form starts with `"Latest Version:"` is replaced by the
stripped argument; the boolean is the `replaced` flag. -/
def fallbackLines (repl : List Char) : List (List Char) → List (List Char) × Bool
  | [] => ([], false)
  | line :: rest =>
    let pr := fallbackLines repl rest
    if lv.isPrefixOf (pyStrip line) then (repl :: pr.1, true) else (line :: pr.1, pr.2)

/-- The string-based fallback (script lines 211-230), reached only when none
of the five regex patterns matched: rejoin the lines if a replacement
happened, otherwise prepend the stripped argument and a blank line. -/
def spliceFallback (d repl : List Char) : List Char :=
  let pr := fallbackLines repl (pySplit '\n' d)
  if pr.2 then joinNL pr.1 else repl ++ '\n' :: '\n' :: d

/-- The version-line splice (script lines 173-230): find the existing
`"Latest Version:"` line with the regex loop and replace the first occurrence
of the matched text by the stripped argument; fall back to the line-based
replacement when no pattern matched. -/
def spliceDesc (d arg : List Char) : List Char :=
  match regexLoopMatch d with
  | some m => replaceFirst d m (pyStrip arg)
  | none => spliceFallback d (pyStrip arg)

/-- The description stored into `metadata_updates` (script lines 169-237):
the splice when the argument starts with `"Latest Version:"`, the argument
verbatim otherwise. -/
def descriptionSent (d arg : List Char) : List Char :=
  if lv.isPrefixOf arg then spliceDesc d arg else arg

/-- The two values of `--auth-method` (script lines 52-57). -/
inductive AuthMethod
  | token
  | username
  deriving DecidableEq

/-- The parsed command-line arguments that influence control flow, together
with whether the add-in file exists (script line 91).  Optional string
arguments default to `none`; Python truthiness treats both `None` and the
empty string as false. -/
structure Args where
  addinExists : Bool
  authMethod : AuthMethod
  clientId : Option (List Char)
  clientSecret : Option (List Char)
  username : Option (List Char)
  password : Option (List Char)
  title : Option (List Char)
  description : Option (List Char)
  tags : Option (List Char)
  deriving DecidableEq

/-- Python truthiness of an optional string: `None` and `""` are falsy. -/
def truthy : Option (List Char) → Bool
  | none => false
  | some s => !s.isEmpty

/-- The credential validation (script lines 95-102). -/
def credsMissing (a : Args) : Bool :=
  match a.authMethod with
  | AuthMethod.token => !truthy a.clientId || !truthy a.clientSecret
  | AuthMethod.username => !truthy a.username || !truthy a.password

/-- The part of a remote content item the script reads: its description
(`None` or a string). -/
structure Item where
  description : Option (List Char)
  deriving DecidableEq

/-- Outcome of a `gis.content.get` call: an exception, a `None` result, or an
item. -/
inductive Fetch
  | raises
  | isNone
  | found (it : Item)
  deriving DecidableEq

/-- The `metadata_updates` dictionary (script lines 166-241): at most a
title, a description and a tag list. -/
structure MetaProps where
  title : Option (List Char)
  description : Option (List Char)
  tags : Option (List (List Char))
  deriving DecidableEq

/-- Python dict falsiness of `metadata_updates`: no key was ever added. -/
def MetaProps.isEmpty (m : MetaProps) : Bool :=
  m.title.isNone && m.description.isNone && m.tags.isNone

/-- One remote call attempted by the script, by call site:  authentication
(line 122/129), the step-2 item fetch (line 151), the binary upload
(line 252), an `item.update(item_properties=...)` metadata update
(lines 311, 368, 373, 390), and the re-fetches of steps 5 and 6
(lines 329, 351, 402). -/
inductive Event
  | auth
  | getItem
  | uploadData
  | updateMeta (props : MetaProps)
  | refetch
  deriving DecidableEq

/-- Oracle for the behaviour of the remote service during one run: whether
each call site raises, and what the fetches return.  Return values that only
influence printing (`update_result`, `metadata_result`) are recorded but
unused. -/
structure Remote where
  authRaises : Bool
  meRaises : Bool
  getItem : Fetch
  uploadRaises : Bool
  uploadReturns : Bool
  metaRaises : Bool
  metaReturns : Bool
  verifyGet : Fetch
  verifyGet2 : Fetch
  verifyUpdRaises : Bool
  emptyDescUpdRaises : Bool
  finalGetRaises : Bool
  deriving DecidableEq

/-- The `metadata_updates` dictionary as built by step 3 (script
lines 166-241): each key is present exactly when the corresponding argument
is truthy; the description goes through `descriptionSent` against the item's
current description (`item.description or ""`), and the tags are the comma
split with each element stripped, in order. -/
def metadataUpdates (a : Args) (item : Item) : MetaProps where
  title := if truthy a.title then a.title else none
  description :=
    if truthy a.description then
      some (descriptionSent (item.description.getD []) (a.description.getD []))
    else none
  tags :=
    if truthy a.tags then some ((pySplit ',' (a.tags.getD [])).map pyStrip)
    else none

/-- Remote calls of the verification step (script lines 325-398), entered
only when `--description` is truthy.  Every exception inside this step is
caught and merely logged (lines 375-378, 392-393, 394-397), so the step
contributes events but never changes the exit status.  The `re.search` at
line 336 uses `r'Latest Version:.*'` with `re.MULTILINE` only, which matches
from the first occurrence of the literal to the end of that line — the same
matched text as `matchAt1`. -/
def step5Events (argDesc : List Char) (r : Remote) : List Event :=
  match r.verifyGet with
  | Fetch.raises => [Event.refetch]
  | Fetch.isNone => [Event.refetch]
  | Fetch.found it =>
    Event.refetch ::
      (if truthy it.description then
        let expectedVersion := pyStrip argDesc
        if lv.isPrefixOf expectedVersion then
          match searchFirst matchAt1 (it.description.getD []) with
          | some matchedLine =>
            if pyStrip matchedLine = pyStrip expectedVersion then []
            else
              match r.verifyGet2 with
              | Fetch.raises => [Event.refetch]
              | Fetch.isNone => [Event.refetch]
              | Fetch.found it2 =>
                let currentDesc := it2.description.getD []
                let pr := fallbackLines (pyStrip expectedVersion) (pySplit '\n' currentDesc)
                [Event.refetch,
                 Event.updateMeta
                   ⟨none,
                    some (if pr.2 then joinNL pr.1
                          else pyStrip expectedVersion ++ '\n' :: '\n' :: currentDesc),
                    none⟩]
          | none => []
        else []
      else [Event.updateMeta ⟨none, some argDesc, none⟩])

/-- One run of `main` after argument parsing (script lines 89-417): the
ordered list of remote calls attempted and the process exit status.
Validation failures exit before any remote call; exceptions during
authentication, the `gis.users.me` access, the step-2 fetch and the upload
exit with status 1; an exception in the step-4b metadata update is caught
and the run continues (lines 316-320); step 5 never changes the exit status;
the final re-fetch of step 6 is guarded only by the outer handler. -/
def run (a : Args) (r : Remote) : List Event × Nat :=
  if !a.addinExists then ([], 1)
  else if credsMissing a then ([], 1)
  else if r.authRaises then ([Event.auth], 1)
  else if r.meRaises then ([Event.auth], 1)
  else
    match r.getItem with
    | Fetch.raises => ([Event.auth, Event.getItem], 1)
    | Fetch.isNone => ([Event.auth, Event.getItem], 1)
    | Fetch.found item =>
      if r.uploadRaises then ([Event.auth, Event.getItem, Event.uploadData], 1)
      else
        (Event.auth :: Event.getItem :: Event.uploadData ::
          ((if (metadataUpdates a item).isEmpty then []
            else [Event.updateMeta (metadataUpdates a item)]) ++
           (if truthy a.description then step5Events (a.description.getD []) r
            else []) ++
           [Event.refetch]),
         if r.finalGetRaises then 1 else 0)

/-! Basic facts about the literal and the search primitives. -/

theorem lv_ne_nil : lv ≠ [] := by decide

theorem lv_length : lv.length = 15 := rfl

theorem matchAt1_eq_none {s : List Char} (h : ¬ lv <+: s) : matchAt1 s = none := by
  simp [matchAt1, List.isPrefixOf_iff_prefix, h]

theorem matchAt2_eq_none {s : List Char} (h : ¬ lv <+: s) : matchAt2 s = none := by
  simp [matchAt2, List.isPrefixOf_iff_prefix, h]

theorem matchAt3_eq_none {s : List Char} (h : ¬ lv <+: s) : matchAt3 s = none := by
  simp [matchAt3, List.isPrefixOf_iff_prefix, h]

theorem matchAt4_eq_none {s : List Char} (h : ¬ lv <+: s) : matchAt4 s = none := by
  simp [matchAt4, List.isPrefixOf_iff_prefix, h]

theorem matchAt5_eq_none {s : List Char} (h : ¬ lv <+: s) : matchAt5 s = none := by
  simp [matchAt5, List.isPrefixOf_iff_prefix, h]

theorem searchFirst_eq_none {f : List Char → Option (List Char)} {s : List Char}
    (h : ∀ t, t <:+ s → f t = none) : searchFirst f s = none := by
  induction s with
  | nil => simpa [searchFirst] using h [] (List.suffix_refl [])
  | cons c t ih =>
    have h0 : f (c :: t) = none := h (c :: t) (List.suffix_refl _)
    simp only [searchFirst, h0]
    exact ih fun u hu => h u (hu.trans (List.suffix_cons c t))

theorem searchFirst_matchAt1_eq (d : List Char) :
    searchFirst matchAt1 d =
      (firstOccSplit lv d).map fun pr => lv ++ pr.2.takeWhile notNL := by
  induction d with
  | nil =>
    simp [searchFirst, matchAt1, firstOccSplit, List.isPrefixOf_iff_prefix, lv_ne_nil]
  | cons c t ih =>
    by_cases h : lv <+: (c :: t)
    · simp [searchFirst, matchAt1, firstOccSplit, List.isPrefixOf_iff_prefix, h, lv_length]
    · simp only [searchFirst, matchAt1, firstOccSplit, List.isPrefixOf_iff_prefix]
      rw [if_neg h, if_neg h]
      rw [show (none : Option (List Char)) = none from rfl]
      simp only [ih]
      cases firstOccSplit lv t <;> simp

/-! Facts about `firstOccSplit`: soundness, minimality, completeness. -/

theorem firstOccSplit_decomp {old d p r : List Char}
    (h : firstOccSplit old d = some (p, r)) : d = p ++ old ++ r := by
  induction d generalizing p r with
  | nil =>
    simp only [firstOccSplit] at h
    split at h
    · rename_i hp
      obtain ⟨rfl, rfl⟩ := by simpa using h
      have : old = [] := by
        simpa using ( List.isPrefixOf_iff_prefix.mp hp).length_le
      simp [this]
    · exact absurd h (by simp)
  | cons c t ih =>
    simp only [firstOccSplit] at h
    split at h
    · rename_i hp
      obtain ⟨rfl, rfl⟩ := by simpa using h
      have := List.prefix_iff_eq_append.mp ( List.isPrefixOf_iff_prefix.mp hp)
      simpa using this.symm
    · cases hft : firstOccSplit old t with
      | none => rw [hft] at h; exact absurd h (by simp)
      | some pr =>
        rw [hft] at h
        obtain ⟨rfl, rfl⟩ : c :: pr.1 = p ∧ pr.2 = r := by
          simpa using h
        simpa using ih (p := pr.1) (r := pr.2) (by rw [hft])

theorem firstOccSplit_min {old d p r : List Char}
    (h : firstOccSplit old d = some (p, r)) :
    ∀ j, j < p.length → ¬ old <+: d.drop j := by
  induction d generalizing p r with
  | nil =>
    simp only [firstOccSplit] at h
    split at h
    · obtain ⟨rfl, rfl⟩ := by simpa using h
      intro j hj
      simp at hj
    · exact absurd h (by simp)
  | cons c t ih =>
    simp only [firstOccSplit] at h
    split at h
    · obtain ⟨rfl, rfl⟩ := by simpa using h
      intro j hj
      simp at hj
    · rename_i hnp
      cases hft : firstOccSplit old t with
      | none => rw [hft] at h; exact absurd h (by simp)
      | some pr =>
        rw [hft] at h
        obtain ⟨rfl, rfl⟩ : c :: pr.1 = p ∧ pr.2 = r := by simpa using h
        intro j hj
        cases j with
        | zero =>
          simpa [ List.isPrefixOf_iff_prefix] using hnp
        | succ j =>
          have := ih (p := pr.1) (r := pr.2) (by rw [hft]) j (by simpa using hj)
          simpa using this

theorem firstOccSplit_at_start {old d : List Char} (h : old <+: d) :
    firstOccSplit old d = some ([], d.drop old.length) := by
  cases d with
  | nil =>
    have : old = [] := by simpa using h.length_le
    simp [firstOccSplit, this]
  | cons c t =>
    simp only [firstOccSplit]
    rw [if_pos ( List.isPrefixOf_iff_prefix.mpr h)]

theorem firstOccSplit_intro {old d p r : List Char}
    (hd : d = p ++ old ++ r) (hmin : ∀ j, j < p.length → ¬ old <+: d.drop j) :
    firstOccSplit old d = some (p, r) := by
  induction p generalizing d with
  | nil =>
    have hp : old <+: d := by
      rw [hd]
      simp only [List.nil_append]
      exact List.prefix_append old r
    rw [firstOccSplit_at_start hp, hd]
    simp [List.drop_left']
  | cons c p₀ ih =>
    have hd' : d = c :: (p₀ ++ old ++ r) := by simpa using hd
    subst hd'
    have hnp : ¬ old <+: c :: (p₀ ++ old ++ r) := by
      simpa using hmin 0 (by simp)
    have hrec : firstOccSplit old (p₀ ++ old ++ r) = some (p₀, r) := by
      apply ih rfl
      intro j hj
      simpa using hmin (j + 1) (by simpa using Nat.succ_lt_succ hj)
    simp only [firstOccSplit]
    rw [if_neg (by simpa [ List.isPrefixOf_iff_prefix] using hnp), hrec]
    rfl

theorem firstOccSplit_isSome_of_occurs {old d : List Char} (h : old <:+: d) :
    (firstOccSplit old d).isSome := by
  induction d with
  | nil =>
    have : old = [] := by simpa using h.length_le
    simp [firstOccSplit, this]
  | cons c t ih =>
    by_cases hp : old <+: c :: t
    · simp [firstOccSplit_at_start hp]
    · rcases List.infix_cons_iff.mp h with h1 | h2
      · exact absurd h1 hp
      · have := ih h2
        simp only [firstOccSplit]
        rw [if_neg (by simpa [ List.isPrefixOf_iff_prefix] using hp)]
        cases hft : firstOccSplit old t with
        | none => rw [hft] at this; simp at this
        | some pr => simp

theorem infix_of_firstOccSplit {old d p r : List Char}
    (h : firstOccSplit old d = some (p, r)) : old <:+: d :=
  ⟨p, r, (firstOccSplit_decomp h).symm⟩

theorem replaceFirst_eq {s old new p r : List Char}
    (h : firstOccSplit old s = some (p, r)) :
    replaceFirst s old new = p ++ new ++ r := by
  simp [replaceFirst, h]

/-- A list of length at least `lv.length` absorbs anything appended behind it
as far as having `lv` as a prefix is concerned. -/
theorem lv_prefix_append_iff {u z : List Char} (hu : 15 ≤ u.length) :
    lv <+: u ++ z ↔ lv <+: u := by
  constructor
  · intro h
    have h1 : lv = (u ++ z).take 15 := by
      simpa [lv_length] using List.prefix_iff_eq_take.mp h
    rw [List.take_append_of_le_length hu] at h1
    rw [h1]
    exact List.take_prefix 15 u
  · intro h
    exact h.trans (List.prefix_append u z)

/-- Having `lv` as a prefix at a position strictly inside `p` does not depend
on what follows the `lv` that sits right behind `p`. -/
theorem lv_prefix_drop_congr {p z w : List Char} {j : Nat} (hj : j < p.length) :
    lv <+: (p ++ lv ++ z).drop j ↔ lv <+: (p ++ lv ++ w).drop j := by
  have hlen : 15 ≤ (p.drop j ++ lv).length := by
    simp [lv_length]
  have hsplit : ∀ y : List Char, (p ++ lv ++ y).drop j = (p.drop j ++ lv) ++ y := by
    intro y
    rw [List.drop_append_eq_append_drop, List.drop_append_eq_append_drop]
    have h1 : j - p.length = 0 := Nat.sub_eq_zero_of_le (Nat.le_of_lt hj)
    have h3 : j - (p.length + lv.length) = 0 := by omega
    simp [h1, h3]
  rw [hsplit z, hsplit w, lv_prefix_append_iff hlen, lv_prefix_append_iff hlen]

/-! Facts about `pyStrip` and `pySplit`. -/

theorem pyStrip_within (s : List Char) : pyStrip s <:+: s := by
  unfold pyStrip
  have h1 : s.dropWhile pySpace <:+ s := List.dropWhile_suffix pySpace
  have h2 : (s.dropWhile pySpace).reverse.dropWhile pySpace <:+
      (s.dropWhile pySpace).reverse := List.dropWhile_suffix pySpace
  have h3 : ((s.dropWhile pySpace).reverse.dropWhile pySpace).reverse <+:
      s.dropWhile pySpace := by
    apply List.reverse_suffix.mp
    simpa using h2
  exact ( List.IsPrefix.isInfix h3).trans ( List.IsSuffix.isInfix h1)

theorem pyStrip_keeps_lv {s : List Char} (h : lv <+: s) : lv <+: pyStrip s := by
  obtain ⟨x, hx⟩ := h
  subst hx
  have h1 : (lv ++ x).dropWhile pySpace = lv ++ x := by
    rw [show lv ++ x = 'L' :: (lv.tail ++ x) from rfl,
      List.dropWhile_cons_of_neg (by decide)]
  unfold pyStrip
  rw [h1]
  set R := (lv ++ x).reverse with hR
  set b := (R.dropWhile pySpace).reverse with hb
  set w := (R.takeWhile pySpace).reverse with hw
  have hlx : lv ++ x = b ++ w := by
    rw [hb, hw, ← List.reverse_append, List.takeWhile_append_dropWhile, hR,
      List.reverse_reverse]
  have hbp : b <+: lv ++ x := ⟨w, hlx.symm⟩
  have hlen : 15 ≤ b.length := by
    by_contra hlt
    push_neg at hlt
    have hcolon : ':' ∈ (lv ++ x).drop b.length := by
      have hceq : (lv ++ x).drop b.length = lv.drop b.length ++ x :=
        List.drop_append_of_le_length (by rw [lv_length]; omega)
      have hmem : ∀ i, i < 15 → ':' ∈ lv.drop i := by decide
      rw [hceq]
      exact List.mem_append_left x (hmem b.length hlt)
    have hdropeq : (lv ++ x).drop b.length = w := by
      conv_lhs => rw [hlx]
      exact List.drop_left b w
    rw [hdropeq] at hcolon
    have : pySpace ':' = true := List.mem_takeWhile_imp (by
      rw [hw] at hcolon
      simpa using hcolon)
    exact absurd this (by decide)
  have htake : b.take 15 = lv := by
    obtain ⟨t, ht⟩ := hbp
    have h2 : b.take 15 = (lv ++ x).take 15 := by
      rw [← ht, List.take_append_of_le_length hlen]
    rw [h2, List.take_append_of_le_length (by simp [lv_length]),
      List.take_of_length_le (by simp [lv_length])]
  rw [List.prefix_iff_eq_take, lv_length, htake]

theorem pySplit_head (sep : Char) (d : List Char) :
    ∃ l ls, pySplit sep d = l :: ls ∧ l <+: d := by
  induction d with
  | nil => exact ⟨[], [], rfl, List.nil_prefix⟩
  | cons c t ih =>
    by_cases hc : c = sep
    · exact ⟨[], pySplit sep t, by simp [pySplit, hc], List.nil_prefix⟩
    · obtain ⟨l, ls, hls, hpre⟩ := ih
      refine ⟨c :: l, ls, ?_, ?_⟩
      · simp [pySplit, hc, hls]
      · exact List.cons_prefix_cons.mpr ⟨rfl, hpre⟩

theorem mem_pySplit_within {sep : Char} {d x : List Char}
    (h : x ∈ pySplit sep d) : x <:+: d := by
  induction d generalizing x with
  | nil =>
    simp only [pySplit, List.mem_singleton] at h
    simp [h]
  | cons c t ih =>
    by_cases hc : c = sep
    · simp only [pySplit, if_pos hc, List.mem_cons] at h
      rcases h with rfl | h
      · exact List.nil_infix
      · exact List.infix_cons (ih h)
    · obtain ⟨l, ls, hls, hpre⟩ := pySplit_head sep t
      simp only [pySplit, if_neg hc, hls, List.mem_cons] at h
      rcases h with rfl | h
      · exact List.IsPrefix.isInfix (List.cons_prefix_cons.mpr ⟨rfl, hpre⟩)
      · have : x ∈ pySplit sep t := by rw [hls]; exact List.mem_cons_of_mem l h
        exact List.infix_cons (ih this)

theorem fallbackLines_flag {repl : List Char} {ls : List (List Char)}
    (h : ∀ l ∈ ls, ¬ lv <+: pyStrip l) : fallbackLines repl ls = (ls, false) := by
  induction ls with
  | nil => rfl
  | cons l rest ih =>
    have hl : ¬ lv.isPrefixOf (pyStrip l) := by
      simpa [ List.isPrefixOf_iff_prefix] using h l (List.mem_cons_self l rest)
    simp only [fallbackLines, ih fun u hu => h u (List.mem_cons_of_mem l hu)]
    rw [if_neg (by simpa using hl)]

/-! Helpers about `takeWhile notNL` and `dropWhile notNL`. -/

theorem dropWhile_notNL_shape (r : List Char) :
    r.dropWhile notNL = [] ∨ ∃ t, r.dropWhile notNL = '\n' :: t := by
  have hw := List.head?_dropWhile_not notNL r
  cases hd : r.dropWhile notNL with
  | nil => exact Or.inl rfl
  | cons c t =>
    right
    rw [hd] at hw
    simp only [List.head?_cons] at hw
    have hc : c = '\n' := by simpa [notNL] using hw
    exact ⟨t, by rw [hc]⟩

theorem takeWhile_notNL_append {u v : List Char} (hu : '\n' ∉ u)
    (hv : v = [] ∨ ∃ t, v = '\n' :: t) : (u ++ v).takeWhile notNL = u := by
  have hpos : ∀ c ∈ u, notNL c = true := by
    intro c hc
    simp only [notNL, bne_iff_ne, ne_eq]
    exact fun hcn => hu (hcn ▸ hc)
  rw [List.takeWhile_append_of_pos hpos]
  rcases hv with rfl | ⟨t, rfl⟩
  · simp
  · simp [notNL]

theorem lv_append_drop {a : List Char} (h : lv <+: a) : lv ++ a.drop 15 = a := by
  have := List.prefix_iff_eq_append.mp h
  simpa [lv_length] using this

/-! The regex loop and the two branches of the splice. -/

theorem searchFirst_none_of_no_marker {f : List Char → Option (List Char)}
    (hf : ∀ t, ¬ lv <+: t → f t = none) {d : List Char} (h : ¬ lv <:+: d) :
    searchFirst f d = none := by
  apply searchFirst_eq_none
  intro t ht
  apply hf
  intro hp
  exact h (( List.IsPrefix.isInfix hp).trans ( List.IsSuffix.isInfix ht))

theorem searchFirst_matchAt1_isSome_iff (d : List Char) :
    (searchFirst matchAt1 d).isSome ↔ lv <:+: d := by
  rw [searchFirst_matchAt1_eq]
  constructor
  · intro h
    cases hfo : firstOccSplit lv d with
    | none => rw [hfo] at h; simp at h
    | some pr => exact infix_of_firstOccSplit (p := pr.1) (r := pr.2) (by rw [hfo])
  · intro h
    have := firstOccSplit_isSome_of_occurs h
    cases hfo : firstOccSplit lv d with
    | none => rw [hfo] at this; simp at this
    | some pr => simp [hfo]

theorem patterns_none_of_no_marker {d : List Char} (h : ¬ lv <:+: d) :
    searchFirst matchAt1 d = none ∧ searchFirst matchAt2 d = none ∧
    searchFirst matchAt3 d = none ∧ searchFirst matchAt4 d = none ∧
    searchFirst matchAt5 d = none ∧ regexLoopMatch d = none := by
  have h1 := searchFirst_none_of_no_marker (fun t ht => matchAt1_eq_none ht) h
  have h2 := searchFirst_none_of_no_marker (fun t ht => matchAt2_eq_none ht) h
  have h3 := searchFirst_none_of_no_marker (fun t ht => matchAt3_eq_none ht) h
  have h4 := searchFirst_none_of_no_marker (fun t ht => matchAt4_eq_none ht) h
  have h5 := searchFirst_none_of_no_marker (fun t ht => matchAt5_eq_none ht) h
  exact ⟨h1, h2, h3, h4, h5, by simp [regexLoopMatch, h1, h2, h3, h4, h5]⟩

theorem regexLoopMatch_none_iff (d : List Char) :
    regexLoopMatch d = none ↔ ¬ lv <:+: d := by
  constructor
  · intro h hin
    cases h1 : searchFirst matchAt1 d with
    | some m => simp [regexLoopMatch, h1] at h
    | none =>
      have : (searchFirst matchAt1 d).isSome :=
        (searchFirst_matchAt1_isSome_iff d).mpr hin
      rw [h1] at this
      simp at this
  · intro h
    exact (patterns_none_of_no_marker h).2.2.2.2.2

theorem spliceDesc_eq_replace {d p r : List Char}
    (hfo : firstOccSplit lv d = some (p, r)) (arg : List Char) :
    spliceDesc d arg = p ++ pyStrip arg ++ r.dropWhile notNL := by
  have hm : searchFirst matchAt1 d = some (lv ++ r.takeWhile notNL) := by
    rw [searchFirst_matchAt1_eq, hfo]
    rfl
  have hfo2 : firstOccSplit (lv ++ r.takeWhile notNL) d =
      some (p, r.dropWhile notNL) := by
    apply firstOccSplit_intro
    · rw [firstOccSplit_decomp hfo]
      simp [List.append_assoc]
    · intro j hj hpref
      exact firstOccSplit_min hfo j hj
        ((List.prefix_append lv (r.takeWhile notNL)).trans hpref)
  simp only [spliceDesc, regexLoopMatch, hm]
  exact replaceFirst_eq hfo2

theorem spliceDesc_eq_prepend {d : List Char} (h : ¬ lv <:+: d) (arg : List Char) :
    spliceDesc d arg = pyStrip arg ++ '\n' :: '\n' :: d := by
  have hloop := (patterns_none_of_no_marker h).2.2.2.2.2
  have hlines : ∀ l ∈ pySplit '\n' d, ¬ lv <+: pyStrip l := by
    intro l hl hp
    exact h ((( List.IsPrefix.isInfix hp).trans (pyStrip_within l)).trans
      (mem_pySplit_within hl))
  simp only [spliceDesc, hloop, spliceFallback, fallbackLines_flag hlines]
  simp

/-! Idempotence of the splice. -/

theorem spliceDesc_idem_of_occurs {d p r arg : List Char}
    (hfo : firstOccSplit lv d = some (p, r)) (harg : lv <+: arg)
    (hnl : '\n' ∉ pyStrip arg) :
    spliceDesc (spliceDesc d arg) arg = spliceDesc d arg := by
  have ha : lv <+: pyStrip arg := pyStrip_keeps_lv harg
  have hsplice1 := spliceDesc_eq_replace hfo arg
  rw [hsplice1]
  have hshape : p ++ pyStrip arg ++ r.dropWhile notNL =
      p ++ lv ++ ((pyStrip arg).drop 15 ++ r.dropWhile notNL) := by
    conv_lhs => rw [← lv_append_drop ha]
    simp [List.append_assoc]
  have hfo1 : firstOccSplit lv (p ++ pyStrip arg ++ r.dropWhile notNL) =
      some (p, (pyStrip arg).drop 15 ++ r.dropWhile notNL) := by
    apply firstOccSplit_intro hshape
    intro j hj hpref
    rw [hshape] at hpref
    have hd := firstOccSplit_decomp hfo
    refine firstOccSplit_min hfo j hj ?_
    rw [hd]
    exact (lv_prefix_drop_congr (z := (pyStrip arg).drop 15 ++ r.dropWhile notNL)
      (w := r) hj).mp hpref
  have htk : ((pyStrip arg).drop 15 ++ r.dropWhile notNL).takeWhile notNL =
      (pyStrip arg).drop 15 :=
    takeWhile_notNL_append (fun hmem => hnl (List.mem_of_mem_drop hmem))
      (dropWhile_notNL_shape r)
  have hm2 : searchFirst matchAt1 (p ++ pyStrip arg ++ r.dropWhile notNL) =
      some (pyStrip arg) := by
    rw [searchFirst_matchAt1_eq, hfo1]
    simp only [Option.map_some']
    rw [htk, lv_append_drop ha]
  have hfo3 : firstOccSplit (pyStrip arg) (p ++ pyStrip arg ++ r.dropWhile notNL) =
      some (p, r.dropWhile notNL) := by
    apply firstOccSplit_intro rfl
    intro j hj hpref
    have hd := firstOccSplit_decomp hfo
    refine firstOccSplit_min hfo j hj ?_
    rw [hd]
    refine (lv_prefix_drop_congr (z := (pyStrip arg).drop 15 ++ r.dropWhile notNL)
      (w := r) hj).mp ?_
    rw [← hshape]
    exact ha.trans hpref
  simp only [spliceDesc, regexLoopMatch, hm2]
  exact replaceFirst_eq hfo3

theorem spliceDesc_idem_of_no_marker {d arg : List Char}
    (h : ¬ lv <:+: d) (harg : lv <+: arg) (hnl : '\n' ∉ pyStrip arg) :
    spliceDesc (spliceDesc d arg) arg = spliceDesc d arg := by
  have ha : lv <+: pyStrip arg := pyStrip_keeps_lv harg
  rw [spliceDesc_eq_prepend h arg]
  have hfo : firstOccSplit lv (pyStrip arg ++ '\n' :: '\n' :: d) =
      some ([], (pyStrip arg).drop 15 ++ '\n' :: '\n' :: d) := by
    rw [firstOccSplit_at_start (ha.trans (List.prefix_append (pyStrip arg) _))]
    rw [List.drop_append_of_le_length (by simpa [lv_length] using ha.length_le), lv_length]
  have htk : ((pyStrip arg).drop 15 ++ '\n' :: '\n' :: d).takeWhile notNL =
      (pyStrip arg).drop 15 :=
    takeWhile_notNL_append (fun hmem => hnl (List.mem_of_mem_drop hmem))
      (Or.inr ⟨'\n' :: d, rfl⟩)
  have hm2 : searchFirst matchAt1 (pyStrip arg ++ '\n' :: '\n' :: d) =
      some (pyStrip arg) := by
    rw [searchFirst_matchAt1_eq, hfo]
    simp only [Option.map_some']
    rw [htk, lv_append_drop ha]
  have hfo3 : firstOccSplit (pyStrip arg) (pyStrip arg ++ '\n' :: '\n' :: d) =
      some ([], '\n' :: '\n' :: d) := by
    rw [firstOccSplit_at_start (List.prefix_append (pyStrip arg) _)]
    rw [List.drop_left]
  simp only [spliceDesc, regexLoopMatch, hm2]
  rw [replaceFirst_eq hfo3]
  rfl

/-! Claim theorems about the description splice. -/

/-- C1: for every invocation supplying `--description`, if the argument does
not start with `"Latest Version:"` the description sent replaces the stored
one verbatim; if it does start with `"Latest Version:"` (and the stored
description contains that marker, so that a version line can be located) the
sent description differs from the stored one exactly at the first
`"Latest Version:"` line, which is replaced by the stripped argument. -/
theorem c1_description_splice (d arg : List Char) :
    (¬ lv <+: arg → descriptionSent d arg = arg) ∧
    (lv <+: arg → lv <:+: d →
      ∃ pre rest : List Char,
        d = pre ++ (lv ++ rest.takeWhile notNL) ++ rest.dropWhile notNL ∧
        (∀ pre' rest', d = pre' ++ lv ++ rest' → pre.length ≤ pre'.length) ∧
        descriptionSent d arg = pre ++ pyStrip arg ++ rest.dropWhile notNL) := by
  constructor
  · intro h
    simp [descriptionSent, List.isPrefixOf_iff_prefix, h]
  · intro harg hin
    have hs := firstOccSplit_isSome_of_occurs hin
    cases hfo : firstOccSplit lv d with
    | none => rw [hfo] at hs; simp at hs
    | some pr =>
      obtain ⟨p, r⟩ := pr
      refine ⟨p, r, ?_, ?_, ?_⟩
      · rw [firstOccSplit_decomp hfo]
        simp [List.append_assoc]
      · intro p' r' hd'
        by_contra hlt
        push_neg at hlt
        refine firstOccSplit_min hfo p'.length hlt ?_
        have hdrop : d.drop p'.length = lv ++ r' := by
          rw [hd', List.append_assoc, List.drop_left]
        rw [hdrop]
        exact List.prefix_append lv r'
      · rw [descriptionSent, if_pos ( List.isPrefixOf_iff_prefix.mpr harg)]
        exact spliceDesc_eq_replace hfo arg

theorem c1_description_splice_witness :
    ∃ pre rest : List Char,
      "Intro\nLatest Version: v1\nEnd".toList =
        pre ++ (lv ++ rest.takeWhile notNL) ++ rest.dropWhile notNL ∧
      (∀ pre' rest', "Intro\nLatest Version: v1\nEnd".toList = pre' ++ lv ++ rest' →
        pre.length ≤ pre'.length) ∧
      descriptionSent "Intro\nLatest Version: v1\nEnd".toList
          "Latest Version: v2".toList =
        pre ++ pyStrip "Latest Version: v2".toList ++ rest.dropWhile notNL :=
  (c1_description_splice "Intro\nLatest Version: v1\nEnd".toList
    "Latest Version: v2".toList).2 (by decide) (by decide)

/-- C3: the loop over the five regex patterns commits to the first pattern
that matches — pattern 1 is tried first, and when it matches, the splice
replaces exactly the first occurrence of its matched text by the stripped
argument, regardless of the later patterns — and the string-based fallback
runs only when all five patterns fail, which happens exactly when pattern 1
itself fails. -/
theorem c3_pattern_order (d arg : List Char) :
    (∀ m, searchFirst matchAt1 d = some m →
      regexLoopMatch d = some m ∧
      ∃ p r : List Char, d = p ++ m ++ r ∧
        (∀ p' r', d = p' ++ m ++ r' → p.length ≤ p'.length) ∧
        spliceDesc d arg = p ++ pyStrip arg ++ r) ∧
    (searchFirst matchAt1 d = none →
      searchFirst matchAt2 d = none ∧ searchFirst matchAt3 d = none ∧
      searchFirst matchAt4 d = none ∧ searchFirst matchAt5 d = none ∧
      regexLoopMatch d = none ∧
      spliceDesc d arg = spliceFallback d (pyStrip arg)) := by
  constructor
  · intro m hm
    refine ⟨by simp [regexLoopMatch, hm], ?_⟩
    have hs : (searchFirst matchAt1 d).isSome := by simp [hm]
    cases hfo : firstOccSplit lv d with
    | none =>
      rw [searchFirst_matchAt1_eq, hfo] at hm
      simp at hm
    | some pr =>
      obtain ⟨p, r⟩ := pr
      have hm' : m = lv ++ r.takeWhile notNL := by
        rw [searchFirst_matchAt1_eq, hfo] at hm
        simpa using hm.symm
      subst hm'
      have hfo2 : firstOccSplit (lv ++ r.takeWhile notNL) d =
          some (p, r.dropWhile notNL) := by
        apply firstOccSplit_intro
        · rw [firstOccSplit_decomp hfo]
          simp [List.append_assoc]
        · intro j hj hpref
          exact firstOccSplit_min hfo j hj
            ((List.prefix_append lv (r.takeWhile notNL)).trans hpref)
      refine ⟨p, r.dropWhile notNL, firstOccSplit_decomp hfo2, ?_, ?_⟩
      · intro p' r' hd'
        by_contra hlt
        push_neg at hlt
        refine firstOccSplit_min hfo2 p'.length hlt ?_
        have hdrop : d.drop p'.length = (lv ++ r.takeWhile notNL) ++ r' := by
          rw [hd', List.append_assoc, List.drop_left]
        rw [hdrop]
        exact List.prefix_append _ r'
      · exact spliceDesc_eq_replace hfo arg
  · intro h1
    have hni : ¬ lv <:+: d := by
      intro hin
      have := (searchFirst_matchAt1_isSome_iff d).mpr hin
      rw [h1] at this
      simp at this
    obtain ⟨_, h2, h3, h4, h5, hloop⟩ := patterns_none_of_no_marker hni
    exact ⟨h2, h3, h4, h5, hloop, by simp [spliceDesc, hloop]⟩

theorem c3_pattern_order_witness :
    regexLoopMatch "Body\nLatest Version: v1 old\nTail".toList =
      some "Latest Version: v1 old".toList ∧
    ∃ p r : List Char, "Body\nLatest Version: v1 old\nTail".toList =
        p ++ "Latest Version: v1 old".toList ++ r ∧
      (∀ p' r', "Body\nLatest Version: v1 old\nTail".toList =
          p' ++ "Latest Version: v1 old".toList ++ r' → p.length ≤ p'.length) ∧
      spliceDesc "Body\nLatest Version: v1 old\nTail".toList
          " Latest Version: v2 ".toList =
        p ++ pyStrip " Latest Version: v2 ".toList ++ r :=
  (c3_pattern_order "Body\nLatest Version: v1 old\nTail".toList
    " Latest Version: v2 ".toList).1 "Latest Version: v1 old".toList (by decide)

/-- C4: when every occurrence of `"Latest Version:"` in the stored
description sits at the start of a line, and the argument starts with
`"Latest Version:"` and contains no newline once stripped, the splice is
idempotent: splicing the same version line into the already-spliced
description leaves it unchanged. -/
theorem c4_splice_idempotent (d arg : List Char)
    (_hline : ∀ j, j ≤ d.length → lv <+: d.drop j →
      j = 0 ∨ d.get? (j - 1) = some '\n')
    (harg : lv <+: arg) (hnl : '\n' ∉ pyStrip arg) :
    spliceDesc (spliceDesc d arg) arg = spliceDesc d arg := by
  by_cases hin : lv <:+: d
  · have hs := firstOccSplit_isSome_of_occurs hin
    cases hfo : firstOccSplit lv d with
    | none => rw [hfo] at hs; simp at hs
    | some pr =>
      exact spliceDesc_idem_of_occurs (p := pr.1) (r := pr.2) (by rw [hfo]) harg hnl
  · exact spliceDesc_idem_of_no_marker hin harg hnl

theorem c4_splice_idempotent_witness :
    spliceDesc
        (spliceDesc "Latest Version: v1.0\nA body line".toList
          "Latest Version: v2.0".toList)
        "Latest Version: v2.0".toList =
      spliceDesc "Latest Version: v1.0\nA body line".toList
        "Latest Version: v2.0".toList :=
  c4_splice_idempotent "Latest Version: v1.0\nA body line".toList
    "Latest Version: v2.0".toList (by decide) (by decide) (by decide)

/-- C8: when the stored description nowhere contains `"Latest Version:"` and
the argument starts with it, the description sent is the stripped argument,
two newline characters, then the stored description unchanged. -/
theorem c8_prepend_branch (d arg : List Char)
    (hni : ¬ lv <:+: d) (harg : lv <+: arg) :
    descriptionSent d arg = pyStrip arg ++ '\n' :: '\n' :: d := by
  rw [descriptionSent, if_pos ( List.isPrefixOf_iff_prefix.mpr harg)]
  exact spliceDesc_eq_prepend hni arg

theorem c8_prepend_branch_witness :
    descriptionSent "Just a plain description\nSecond line".toList
        "Latest Version: v3.1".toList =
      pyStrip "Latest Version: v3.1".toList ++
        '\n' :: '\n' :: "Just a plain description\nSecond line".toList :=
  c8_prepend_branch "Just a plain description\nSecond line".toList
    "Latest Version: v3.1".toList (by decide) (by decide)

/-- C9: pattern 1 finds a match exactly when the description contains the
substring `"Latest Version:"`; consequently, whenever the whole regex loop
fails, no line of the description has a stripped form starting with
`"Latest Version:"`, the `replaced` flag of the string-based fallback is
necessarily `false`, and the fallback always takes the prepend branch. -/
theorem c9_fallback_always_prepends (d arg : List Char) :
    ((searchFirst matchAt1 d).isSome ↔ lv <:+: d) ∧
    (regexLoopMatch d = none →
      (∀ line ∈ pySplit '\n' d, ¬ lv <+: pyStrip line) ∧
      (fallbackLines (pyStrip arg) (pySplit '\n' d)).2 = false ∧
      spliceFallback d (pyStrip arg) = pyStrip arg ++ '\n' :: '\n' :: d) := by
  refine ⟨searchFirst_matchAt1_isSome_iff d, ?_⟩
  intro hloop
  have hni : ¬ lv <:+: d := (regexLoopMatch_none_iff d).mp hloop
  have hlines : ∀ line ∈ pySplit '\n' d, ¬ lv <+: pyStrip line := by
    intro l hl hp
    exact hni ((( List.IsPrefix.isInfix hp).trans (pyStrip_within l)).trans
      (mem_pySplit_within hl))
  refine ⟨hlines, ?_, ?_⟩
  · rw [fallbackLines_flag hlines]
  · simp only [spliceFallback, fallbackLines_flag hlines]
    simp

theorem c9_fallback_always_prepends_witness :
    (∀ line ∈ pySplit '\n' "alpha\nbeta gamma".toList,
      ¬ lv <+: pyStrip line) ∧
    (fallbackLines (pyStrip "Latest Version: v7".toList)
      (pySplit '\n' "alpha\nbeta gamma".toList)).2 = false ∧
    spliceFallback "alpha\nbeta gamma".toList
        (pyStrip "Latest Version: v7".toList) =
      pyStrip "Latest Version: v7".toList ++ '\n' :: '\n' :: "alpha\nbeta gamma".toList :=
  (c9_fallback_always_prepends "alpha\nbeta gamma".toList
    "Latest Version: v7".toList).2 (by decide)

/-! Lemmas about the run model. -/

theorem metadataUpdates_isEmpty {a : Args} {it : Item}
    (ht : truthy a.title = false) (hd : truthy a.description = false)
    (hg : truthy a.tags = false) : (metadataUpdates a it).isEmpty = true := by
  simp [metadataUpdates, MetaProps.isEmpty, ht, hd, hg]

theorem step5_updateMeta_tags {argDesc : List Char} {r : Remote} {mu : MetaProps}
    (h : Event.updateMeta mu ∈ step5Events argDesc r) : mu.tags = none := by
  unfold step5Events at h
  split at h
  · simp at h
  · simp at h
  · simp only [List.mem_cons] at h
    rcases h with h | h
    · exact absurd h (by simp)
    · split at h
      · split at h
        · split at h
          · split at h
            · simp at h
            · split at h
              · simp at h
              · simp at h
              · simp at h
                rw [h]
          · simp at h
        · simp at h
      · simp at h
        rw [h]

theorem run_shape (a : Args) (r : Remote) :
    (run a r).1 = [] ∨ (run a r).1 = [Event.auth] ∨
    (run a r).1 = [Event.auth, Event.getItem] ∨
    ((run a r).1 = [Event.auth, Event.getItem, Event.uploadData] ∧
      r.uploadRaises = true) ∨
    (∃ it, r.getItem = Fetch.found it ∧ r.uploadRaises = false ∧
      (run a r).1 = Event.auth :: Event.getItem :: Event.uploadData ::
        ((if (metadataUpdates a it).isEmpty then []
          else [Event.updateMeta (metadataUpdates a it)]) ++
         (if truthy a.description then step5Events (a.description.getD []) r
          else []) ++
         [Event.refetch])) := by
  unfold run
  split
  · exact Or.inl rfl
  · split
    · exact Or.inl rfl
    · split
      · exact Or.inr (Or.inl rfl)
      · split
        · exact Or.inr (Or.inl rfl)
        · split
          · exact Or.inr (Or.inr (Or.inl rfl))
          · exact Or.inr (Or.inr (Or.inl rfl))
          · rename_i it heq
            split
            · rename_i hup
              exact Or.inr (Or.inr (Or.inr (Or.inl ⟨rfl, hup⟩)))
            · rename_i hup
              exact Or.inr (Or.inr (Or.inr (Or.inr
                ⟨it, heq, Bool.not_eq_true _ ▸ eq_false_of_ne_true hup, rfl⟩)))

theorem mem_updateMeta_run {a : Args} {r : Remote} {mu : MetaProps}
    (h : Event.updateMeta mu ∈ (run a r).1) :
    (∃ it, r.getItem = Fetch.found it ∧ (metadataUpdates a it).isEmpty = false ∧
      mu = metadataUpdates a it) ∨
    (truthy a.description = true ∧
      Event.updateMeta mu ∈ step5Events (a.description.getD []) r) := by
  rcases run_shape a r with hs | hs | hs | ⟨hs, _⟩ | ⟨it, hg, _, hs⟩ <;>
    rw [hs] at h
  · simp at h
  · simp at h
  · simp at h
  · simp at h
  · simp only [List.mem_cons, List.mem_append, List.mem_singleton] at h
    rcases h with h | h | h | ⟨h | h⟩ | h
    · exact absurd h (by simp)
    · exact absurd h (by simp)
    · exact absurd h (by simp)
    · left
      refine ⟨it, hg, ?_, ?_⟩ <;> split at h
      · simp at h
      · rename_i hemp
        simpa using hemp
      · simp at h
      · simpa using h
    · right
      split at h
      · rename_i hdes
        exact ⟨hdes, h⟩
      · simp at h
    · exact absurd h (by simp)

/-! Claim theorems about the run model. -/

/-- C5: when none of `--title`, `--description`, `--tags` is truthy, the run
performs no metadata-update call at all: no `item.update(item_properties=...)`
event appears in the trace, so title, description and tags are untouched and
only the binary payload upload happens. -/
theorem c5_no_metadata_update (a : Args) (r : Remote)
    (ht : truthy a.title = false) (hd : truthy a.description = false)
    (hg : truthy a.tags = false) :
    ∀ mu, Event.updateMeta mu ∉ (run a r).1 := by
  intro mu hmem
  rcases mem_updateMeta_run hmem with ⟨it, _, hne, _⟩ | ⟨hdes, _⟩
  · rw [metadataUpdates_isEmpty ht hd hg] at hne
    exact absurd hne (by simp)
  · rw [hd] at hdes
    exact Bool.false_ne_true hdes

theorem c5_no_metadata_update_witness :
    Event.updateMeta ⟨none, none, none⟩ ∉
      (run ⟨true, AuthMethod.username, none, none, some ['u'], some ['p'],
          none, none, none⟩
        ⟨false, false, Fetch.found ⟨none⟩, false, true, false, true,
          Fetch.isNone, Fetch.isNone, false, false, false⟩).1 :=
  c5_no_metadata_update
    ⟨true, AuthMethod.username, none, none, some ['u'], some ['p'],
      none, none, none⟩
    ⟨false, false, Fetch.found ⟨none⟩, false, true, false, true,
      Fetch.isNone, Fetch.isNone, false, false, false⟩
    rfl rfl rfl ⟨none, none, none⟩

/-- C6: the remote operations happen in a fixed order — whenever any metadata
update is attempted, the trace begins with authentication, then the item
fetch, then the binary upload, and the update comes after them; and when the
upload raises, no metadata update is ever attempted. -/
theorem c6_operation_order (a : Args) (r : Remote) :
    ((∃ mu, Event.updateMeta mu ∈ (run a r).1) →
      (run a r).1.take 3 = [Event.auth, Event.getItem, Event.uploadData]) ∧
    (r.uploadRaises = true → ∀ mu, Event.updateMeta mu ∉ (run a r).1) := by
  rcases run_shape a r with hs | hs | hs | ⟨hs, _⟩ | ⟨it, _, hup, hs⟩
  · exact ⟨fun ⟨mu, hm⟩ => absurd (hs ▸ hm) (by simp),
      fun _ mu hm => absurd (hs ▸ hm) (by simp)⟩
  · exact ⟨fun ⟨mu, hm⟩ => absurd (hs ▸ hm) (by simp),
      fun _ mu hm => absurd (hs ▸ hm) (by simp)⟩
  · exact ⟨fun ⟨mu, hm⟩ => absurd (hs ▸ hm) (by simp),
      fun _ mu hm => absurd (hs ▸ hm) (by simp)⟩
  · exact ⟨fun ⟨mu, hm⟩ => absurd (hs ▸ hm) (by simp),
      fun _ mu hm => absurd (hs ▸ hm) (by simp)⟩
  · constructor
    · intro _
      rw [hs]
      rfl
    · intro hup' mu _
      rw [hup] at hup'
      exact Bool.false_ne_true hup'

theorem c6_operation_order_witness :
    (run ⟨true, AuthMethod.token, some ['i'], some ['s'], none, none,
        some ['T'], none, none⟩
      ⟨false, false, Fetch.found ⟨none⟩, false, true, false, true,
        Fetch.isNone, Fetch.isNone, false, false, false⟩).1.take 3 =
      [Event.auth, Event.getItem, Event.uploadData] :=
  (c6_operation_order
    ⟨true, AuthMethod.token, some ['i'], some ['s'], none, none,
      some ['T'], none, none⟩
    ⟨false, false, Fetch.found ⟨none⟩, false, true, false, true,
      Fetch.isNone, Fetch.isNone, false, false, false⟩).1
    ⟨⟨some ['T'], none, none⟩, by decide⟩

/-- C7: the tags of the step-4b metadata update are the comma split of the
`--tags` argument with each element stripped, in order; every other update
event carries no tags, and when `--tags` is not truthy no update event
carries tags at all. -/
theorem c7_tags (a : Args) (r : Remote) :
    (truthy a.tags = false →
      ∀ mu, Event.updateMeta mu ∈ (run a r).1 → mu.tags = none) ∧
    (truthy a.tags = true →
      ∀ mu, Event.updateMeta mu ∈ (run a r).1 →
        mu.tags = none ∨
        mu.tags = some ((pySplit ',' (a.tags.getD [])).map pyStrip)) ∧
    (∀ it, truthy a.tags = true →
      (metadataUpdates a it).tags =
        some ((pySplit ',' (a.tags.getD [])).map pyStrip)) := by
  refine ⟨?_, ?_, ?_⟩
  · intro hg mu hmem
    rcases mem_updateMeta_run hmem with ⟨it, _, _, rfl⟩ | ⟨_, h5⟩
    · simp [metadataUpdates, hg]
    · exact step5_updateMeta_tags h5
  · intro hg mu hmem
    rcases mem_updateMeta_run hmem with ⟨it, _, _, rfl⟩ | ⟨_, h5⟩
    · right
      simp [metadataUpdates, hg]
    · exact Or.inl (step5_updateMeta_tags h5)
  · intro it hg
    simp [metadataUpdates, hg]

theorem c7_tags_witness :
    (⟨none, none, some [['g'], ['h']]⟩ : MetaProps).tags = none ∨
    (⟨none, none, some [['g'], ['h']]⟩ : MetaProps).tags =
      some ((pySplit ','
        ((some ['g', ',', ' ', 'h'] : Option (List Char)).getD [])).map pyStrip) :=
  (c7_tags
    ⟨true, AuthMethod.token, some ['i'], some ['s'], none, none,
      none, none, some ['g', ',', ' ', 'h']⟩
    ⟨false, false, Fetch.found ⟨none⟩, false, true, false, true,
      Fetch.isNone, Fetch.isNone, false, false, false⟩).2.1
    rfl ⟨none, none, some [['g'], ['h']]⟩ (by decide)

/-- C10: when the add-in file does not exist, or `--auth-method token` lacks
a client id or secret, or `--auth-method username` lacks a username or
password, the run prints an error and exits with status 1 before attempting
any remote call: the trace is empty. -/
theorem c10_validation (a : Args) (r : Remote)
    (h : a.addinExists = false ∨
      (a.authMethod = AuthMethod.token ∧
        (a.clientId = none ∨ a.clientSecret = none)) ∨
      (a.authMethod = AuthMethod.username ∧
        (a.username = none ∨ a.password = none))) :
    run a r = ([], 1) := by
  rcases h with h | ⟨hm, h⟩ | ⟨hm, h⟩
  · simp [run, h]
  · have hc : credsMissing a = true := by
      rcases h with h | h <;> simp [credsMissing, hm, h, truthy]
    simp [run, hc]
  · have hc : credsMissing a = true := by
      rcases h with h | h <;> simp [credsMissing, hm, h, truthy]
    simp [run, hc]

theorem c10_validation_witness :
    run ⟨true, AuthMethod.token, none, some ['s'], none, none, none, none, none⟩
      ⟨false, false, Fetch.isNone, false, true, false, true,
        Fetch.isNone, Fetch.isNone, false, false, false⟩ = ([], 1) :=
  c10_validation
    ⟨true, AuthMethod.token, none, some ['s'], none, none, none, none, none⟩
    ⟨false, false, Fetch.isNone, false, true, false, true,
      Fetch.isNone, Fetch.isNone, false, false, false⟩
    (Or.inr (Or.inl ⟨rfl, Or.inl rfl⟩))

/-- Arguments of the run refuting C2: a valid token invocation that only
sets `--tags`. -/
def c2Args : Args :=
  ⟨true, AuthMethod.token, some ['i'], some ['s'], none, none, none, none,
    some ['a', ',', 'b']⟩

/-- The item returned by the fetches in the run refuting C2. -/
def c2Item : Item := ⟨some ['x']⟩

/-- Remote behaviour refuting C2: every call succeeds except the step-4b
metadata update, which raises. -/
def c2Remote : Remote :=
  ⟨false, false, Fetch.found c2Item, false, true, true, true,
    Fetch.found c2Item, Fetch.found c2Item, false, false, false⟩

/-- Counterexample to C2 as stated: the step-4b metadata update raises
(`metaRaises = true`, handled at script lines 316-320 without exiting), the
update call is attempted, and the run still finishes with exit status 0. -/
theorem c2_counterexample :
    c2Remote.metaRaises = true ∧
    Event.updateMeta ⟨none, none, some [['a'], ['b']]⟩ ∈
      (run c2Args c2Remote).1 ∧
    (run c2Args c2Remote).2 = 0 := by
  decide

theorem run_exit (a : Args) (r : Remote) :
    (run a r).2 = 1 ∨
    ((run a r).2 = 0 ∧ r.authRaises = false ∧
      (∃ it, r.getItem = Fetch.found it) ∧ r.uploadRaises = false ∧
      r.finalGetRaises = false) := by
  by_cases hA : (!a.addinExists) = true
  · exact Or.inl (by simp [run, hA])
  by_cases hC : credsMissing a = true
  · exact Or.inl (by simp [run, hA, hC])
  by_cases hAu : r.authRaises = true
  · exact Or.inl (by simp [run, hA, hC, hAu])
  by_cases hMe : r.meRaises = true
  · exact Or.inl (by simp [run, hA, hC, hAu, hMe])
  cases hgi : r.getItem with
  | raises => exact Or.inl (by simp [run, hA, hC, hAu, hMe, hgi])
  | isNone => exact Or.inl (by simp [run, hA, hC, hAu, hMe, hgi])
  | found it =>
    by_cases hUp : r.uploadRaises = true
    · exact Or.inl (by simp [run, hA, hC, hAu, hMe, hgi, hUp])
    by_cases hFg : r.finalGetRaises = true
    · exact Or.inl (by simp [run, hA, hC, hAu, hMe, hgi, hUp, hFg])
    · refine Or.inr ⟨by simp [run, hA, hC, hAu, hMe, hgi, hUp, hFg], ?_, ⟨it, rfl⟩, ?_, ?_⟩
      · exact eq_false_of_ne_true hAu
      · exact eq_false_of_ne_true hUp
      · exact eq_false_of_ne_true hFg

/-- C2 (amended): an exception raised during authentication, the step-2 item
fetch, or the file upload terminates the run with exit status 1; but an
exception raised by the step-4b metadata update is caught and only printed,
and the run can still finish with exit status 0. -/
theorem c2_amended_exceptions (a : Args) (r : Remote) :
    ((r.authRaises = true ∨ r.getItem = Fetch.raises ∨ r.uploadRaises = true) →
      (run a r).2 = 1) ∧
    (∀ it, a.addinExists = true → credsMissing a = false →
      r.authRaises = false → r.meRaises = false →
      r.getItem = Fetch.found it → r.uploadRaises = false →
      r.finalGetRaises = false → (run a r).2 = 0) := by
  constructor
  · intro h
    rcases run_exit a r with h1 | ⟨_, ha, ⟨it, hgi⟩, hu, _⟩
    · exact h1
    · rcases h with h | h | h
      · rw [ha] at h
        exact absurd h (by simp)
      · rw [hgi] at h
        exact absurd h (by simp)
      · rw [hu] at h
        exact absurd h (by simp)
  · intro it h1 h2 h3 h4 h5 h6 h7
    simp [run, h1, h2, h3, h4, h5, h6, h7]

theorem c2_amended_exceptions_witness :
    (run c2Args
      ⟨true, false, Fetch.found c2Item, false, true, true, true,
        Fetch.found c2Item, Fetch.found c2Item, false, false, false⟩).2 = 1 ∧
    (run c2Args c2Remote).2 = 0 :=
  ⟨(c2_amended_exceptions c2Args
      ⟨true, false, Fetch.found c2Item, false, true, true, true,
        Fetch.found c2Item, Fetch.found c2Item, false, false, false⟩).1
      (Or.inl rfl),
   (c2_amended_exceptions c2Args c2Remote).2 c2Item rfl rfl rfl rfl rfl rfl rfl⟩

end Agol
